import Mathlib

/-!
Shallow embedding of `crates/editor/src/inlay_cache.rs` (the inlay-hint
cache of the editor) and proofs about its operations: `apply_settings`,
`apply_fetch_inlays`, `clear`, `fetch_inlays` and the helpers
`allowed_inlay_hint_types`, `inlays_up_to_date`.

External substrate types (`clock::Global`, `clock::Local`, text anchors)
are not part of the source tree; they are modelled from the spec as
noted on each definition.
-/

namespace InlayCacheModel

/-- Kind of an inlay hint, from the `project` crate: `Type` or `Parameter`;
`Option InlayHintKind` with `none` standing for "other". -/
inductive InlayHintKind
  | type
  | parameter
deriving DecidableEq, Repr

/-- The three visibility flags of `editor_settings::InlayHints`. -/
structure InlayHints where
  show_type_hints : Bool
  show_parameter_hints : Bool
  show_other_hints : Bool
deriving DecidableEq, Repr

/-- Modelled from the spec: `clock::Local`, the "version-of-creation" part of
a Position Key; the spec only needs it to be a totally ordered value, so it
is a natural number. -/
abbrev Local := Nat

/-- Modelled from the spec: `clock::Global`, a buffer version stamp, a
"monotonically advancing marker of a buffer's edit history, supporting
ordering comparisons"; modelled as a natural number. -/
abbrev Global := Nat

/-- Modelled from the spec: `Global::changed_since`, true when `a` has
advanced strictly past `b`. -/
def changed_since (a b : Global) : Bool := b < a

/-- A text anchor as used by the cache: only `text_anchor.offset` and
`text_anchor.timestamp` are consulted (`OrderedByAnchorOffset::add` and the
merge-join read exactly these two fields). -/
structure Anchor where
  offset : Nat
  timestamp : Local
deriving DecidableEq, Repr

/-- The derived lexicographic order of `AnchorKey` (offset, then version). -/
def Anchor.keyLt (a b : Anchor) : Bool :=
  a.offset < b.offset || (a.offset == b.offset && a.timestamp < b.timestamp)

/-- An inlay hint from the hint source: a kind and display content (the
`label`); `position` is the raw offset the hint source reported, used when
anchoring. Rust compares whole hints with `==`. -/
structure InlayHint where
  position : Nat
  kind : Option InlayHintKind
  label : String
deriving DecidableEq, Repr

/-- `InlayId(pub usize)`: process-lifetime id of a cached hint instance. -/
abbrev InlayId := Nat

/-- `OrderedByAnchorOffset<T>`: a `BTreeMap<AnchorKey, (Anchor, T)>`. The key
is derived from the anchor (its offset and timestamp), so it is modelled as a
list of `(Anchor, T)` pairs kept sorted by `(offset, timestamp)` with unique
keys; `add` is `BTreeMap::insert` (replacing an equal key). -/
abbrev OrderedByAnchorOffset (T : Type) := List (Anchor × T)

/-- `OrderedByAnchorOffset::add`: insert by the anchor's key, keeping order,
replacing the entry with an equal key when present. -/
def addOrdered {T : Type} (anchor : Anchor) (t : T) :
    List (Anchor × T) → List (Anchor × T)
  | [] => [(anchor, t)]
  | (a, u) :: rest =>
    if Anchor.keyLt anchor a then (anchor, t) :: (a, u) :: rest
    else if anchor = a then (anchor, t) :: rest
    else (a, u) :: addOrdered anchor t rest

/-- Buffer paths; `PathBuf` in the source. -/
abbrev PathBuf := String

/-- Excerpt identifiers. -/
abbrev ExcerptId := Nat

/-- Association-list lookup, modelling `HashMap::get`. -/
def alookup {K V : Type} [DecidableEq K] (k : K) : List (K × V) → Option V
  | [] => none
  | (k', v) :: rest => if k = k' then some v else alookup k rest

/-- Association-list removal, modelling `HashMap::remove` (drops the first
binding of the key). -/
def aremove {K V : Type} [DecidableEq K] (k : K) : List (K × V) → List (K × V)
  | [] => []
  | (k', v) :: rest => if k = k' then rest else (k', v) :: aremove k rest

/-- Association-list insert-or-replace, modelling `HashMap::insert` /
`entry().or_default()` style updates. -/
def aset {K V : Type} [DecidableEq K] (k : K) (v : V) : List (K × V) → List (K × V)
  | [] => [(k, v)]
  | (k', v') :: rest => if k = k' then (k, v) :: rest else (k', v') :: aset k v rest

/-- `BufferInlays`: the Per-Buffer Store, a version stamp plus a map from
excerpt id to the ordered index of `(InlayId, InlayHint)` entries. -/
structure BufferInlays where
  buffer_version : Global
  inlays_per_excerpts : List (ExcerptId × OrderedByAnchorOffset (InlayId × InlayHint))
deriving DecidableEq, Repr

/-- `InlayCache`: map from buffer path to Per-Buffer Store, the set of
visible hint kinds, and the monotonically increasing id allocator. -/
structure InlayCache where
  inlays_per_buffer : List (PathBuf × BufferInlays)
  allowed_hint_kinds : Finset (Option InlayHintKind)
  next_inlay_id : Nat

/-- All ids stored in one Per-Buffer Store, in excerpt, then anchor
order. -/
def storedIds (bi : BufferInlays) : List InlayId :=
  bi.inlays_per_excerpts.flatMap fun e => e.2.map fun x => x.2.1

/-- `InlaySplice`: the output contract toward the view layer. -/
structure InlaySplice where
  to_remove : List InlayId
  to_insert : List (InlayId × Anchor × InlayHint)
deriving DecidableEq, Repr

/-- `allowed_inlay_hint_types`: map the three setting flags onto the kind
space. -/
def allowed_inlay_hint_types (s : InlayHints) : Finset (Option InlayHintKind) :=
  let s1 : Finset (Option InlayHintKind) :=
    if s.show_type_hints then {some InlayHintKind.type} else ∅
  let s2 := if s.show_parameter_hints then insert (some InlayHintKind.parameter) s1 else s1
  if s.show_other_hints then insert none s2 else s2

/-- All `(Anchor, (InlayId, InlayHint))` entries of the cache, in buffer,
then excerpt, then anchor order — the iteration of `apply_settings`. -/
def allEntries (c : InlayCache) : List (Anchor × InlayId × InlayHint) :=
  c.inlays_per_buffer.flatMap fun (_, bi) =>
    bi.inlays_per_excerpts.flatMap fun (_, idx) => idx

/-- `InlayCache::apply_settings`: computes the newly visible and newly
hidden kind sets, scans every cached hint once, and (faithfully to the
source) stores the *difference* set `new − old` as the new
`allowed_hint_kinds`. -/
def apply_settings (c : InlayCache) (s : InlayHints) : InlayCache × InlaySplice :=
  let new_allowed_inlay_hint_types := allowed_inlay_hint_types s
  let new_allowed_hint_kinds := new_allowed_inlay_hint_types \ c.allowed_hint_kinds
  let removed_hint_kinds := c.allowed_hint_kinds \ new_allowed_inlay_hint_types
  let to_remove := (allEntries c).filterMap fun (_, id, hint) =>
    if hint.kind ∈ removed_hint_kinds then some id else none
  let to_insert := (allEntries c).filterMap fun (anchor, id, hint) =>
    if hint.kind ∈ removed_hint_kinds then none
    else if hint.kind ∈ new_allowed_hint_kinds then some (id, anchor, hint) else none
  ({ c with allowed_hint_kinds := new_allowed_hint_kinds },
   { to_remove := to_remove, to_insert := to_insert })

/-- `InlayCache::clear`: drain all Per-Buffer Stores, returning every stored
id; the allocator and the visible-kind set are untouched. -/
def clear (c : InlayCache) : InlayCache × List InlayId :=
  ({ c with inlays_per_buffer := [] },
   c.inlays_per_buffer.flatMap fun e => storedIds e.2)

/-- `InlayCache::inlays_up_to_date`: the buffer has a store whose version is
equal to, or has advanced past, the requested version, and an index exists
for the excerpt. Stated over the `inlays_per_buffer` map, the only field the
source consults. -/
def inlays_up_to_date (ipb : List (PathBuf × BufferInlays)) (path : PathBuf)
    (version : Global) (excerpt : ExcerptId) : Bool :=
  match alookup path ipb with
  | none => false
  | some bi =>
    (version == bi.buffer_version || changed_since bi.buffer_version version)
      && (alookup excerpt bi.inlays_per_excerpts).isSome

/-- The inner `while let Some(new_offset) = new_excerpt_inlays.peek()` loop of
the merge-join `retain` closure, for one old entry `(oa, oid, oh)`: consumes
fetched hints with offset `<` the old offset (fresh id, scheduled for
insertion), consumes an equal-offset hint (retain on identical content, fresh
id on differing content), stops at the first strictly greater offset.
Returns the retain flag, the remaining fetched hints, the advanced id
counter, and the allocated additions in allocation order. -/
def joinOne (oa : Anchor) (oh : InlayHint) (retain : Bool)
    (news : List (Anchor × InlayHint)) (n : Nat) :
    Bool × List (Anchor × InlayHint) × Nat × List (Anchor × InlayId × InlayHint) :=
  match news with
  | [] => (retain, [], n, [])
  | (na, nh) :: rest =>
    if na.offset < oa.offset then
      let (r, rest', n', adds) := joinOne oa oh retain rest (n + 1)
      (r, rest', n', (na, n, nh) :: adds)
    else if na.offset = oa.offset then
      if nh = oh then joinOne oa oh true rest n
      else
        let (r, rest', n', adds) := joinOne oa oh retain rest (n + 1)
        (r, rest', n', (na, n, nh) :: adds)
    else (retain, (na, nh) :: rest, n, [])

/-- The `retain` pass over one excerpt's existing ordered entries: each old
entry runs `joinOne` with a fresh retain flag; a non-retained entry's id is
scheduled for removal. Returns the kept entries, the removed ids, the
un-consumed fetched hints, the advanced counter, and all additions. -/
def joinOlds (olds : List (Anchor × InlayId × InlayHint))
    (news : List (Anchor × InlayHint)) (n : Nat) :
    List (Anchor × InlayId × InlayHint) × List InlayId × List (Anchor × InlayHint)
      × Nat × List (Anchor × InlayId × InlayHint) :=
  match olds with
  | [] => ([], [], news, n, [])
  | (oa, oid, oh) :: olds' =>
    let (retain, news', n1, adds) := joinOne oa oh false news n
    let (kept, removed, news'', n2, adds') := joinOlds olds' news' n1
    if retain then ((oa, oid, oh) :: kept, removed, news'', n2, adds ++ adds')
    else (kept, oid :: removed, news'', n2, adds ++ adds')

/-- Allocate a fresh id (post-incrementing the counter) for every remaining
fetched hint, in order — the loop after the `retain` pass, and the
unknown-buffer path. -/
def allocNews (news : List (Anchor × InlayHint)) (n : Nat) :
    List (Anchor × InlayId × InlayHint) × Nat :=
  match news with
  | [] => ([], n)
  | (a, h) :: rest =>
    let (l, n') := allocNews rest (n + 1)
    ((a, n, h) :: l, n')

/-- Insert each addition into an excerpt index via `OrderedByAnchorOffset::add`
in order. -/
def addAll (entries : List (Anchor × InlayId × InlayHint))
    (idx : OrderedByAnchorOffset (InlayId × InlayHint)) :
    OrderedByAnchorOffset (InlayId × InlayHint) :=
  entries.foldl (fun acc e => addOrdered e.1 e.2 acc) idx

/-- Offset ranges (`Range<usize>`): only carried through by the merge, and
clamped by the fetch coordinator. -/
structure OffsetRange where
  start : Nat
  stop : Nat
deriving DecidableEq, Repr

/-- One excerpt's contribution to a batch: `None` marks "skipped, no change";
`Some` carries the request's offset range and the ordered fetched hints. -/
abbrev FetchedExcerpt := Option (OffsetRange × List (Anchor × InlayHint))

/-- A fetched batch: buffer path to (batch version, excerpt contributions). -/
abbrev Batch := List (PathBuf × Global × List (ExcerptId × FetchedExcerpt))

/-- Mutable state threaded through `apply_fetch_inlays`: the cache's buffer
map, the id allocator, and the splice accumulators (`to_insert` here is the
raw, unfiltered list). -/
structure MergeState where
  ipb : List (PathBuf × BufferInlays)
  next : Nat
  to_remove : List InlayId
  to_insert : List (InlayId × Anchor × InlayHint)

/-- The known-buffer loop of `apply_fetch_inlays`: for each excerpt present
in the batch, skip `None` entries and up-to-date excerpts (re-checked
against the *current* cache state), otherwise merge-join against the
existing index (when the excerpt was in the pre-merge clone) and append the
remaining fetched hints under fresh ids. -/
def processKnownExcerpts (path : PathBuf) (version : Global)
    (excerpts : List (ExcerptId × FetchedExcerpt))
    (oldBuf : BufferInlays) (st : MergeState) : MergeState :=
  match excerpts with
  | [] => st
  | (eid, entry) :: rest =>
    match entry with
    | none => processKnownExcerpts path version rest oldBuf st
    | some (_, news) =>
      if inlays_up_to_date st.ipb path version eid then
        processKnownExcerpts path version rest oldBuf st
      else
        match alookup path st.ipb with
        | none => processKnownExcerpts path version rest oldBuf st
        | some selfBuf =>
          if (alookup eid oldBuf.inlays_per_excerpts).isSome then
            let oldBuf' : BufferInlays :=
              { oldBuf with inlays_per_excerpts := aremove eid oldBuf.inlays_per_excerpts }
            match alookup eid selfBuf.inlays_per_excerpts with
            | none => processKnownExcerpts path version rest oldBuf' st
            | some olds =>
              let (kept, removed, newsRest, n1, adds) := joinOlds olds news st.next
              let idx1 := addAll adds kept
              let (freshAdds, n2) := allocNews newsRest n1
              let idx2 := addAll freshAdds idx1
              let selfBuf' : BufferInlays :=
                { selfBuf with inlays_per_excerpts := aset eid idx2 selfBuf.inlays_per_excerpts }
              processKnownExcerpts path version rest oldBuf'
                { ipb := aset path selfBuf' st.ipb
                  next := n2
                  to_remove := st.to_remove ++ removed
                  to_insert :=
                    st.to_insert ++ (adds ++ freshAdds).map (fun (a, id, h) => (id, a, h)) }
          else
            let (freshAdds, n1) := allocNews news st.next
            let baseIdx := (alookup eid selfBuf.inlays_per_excerpts).getD []
            let idx := addAll freshAdds baseIdx
            let selfBuf' : BufferInlays :=
              { selfBuf with inlays_per_excerpts := aset eid idx selfBuf.inlays_per_excerpts }
            processKnownExcerpts path version rest oldBuf
              { ipb := aset path selfBuf' st.ipb
                next := n1
                to_remove := st.to_remove
                to_insert := st.to_insert ++ freshAdds.map (fun (a, id, h) => (id, a, h)) }

/-- The unknown-buffer path of `apply_fetch_inlays`: every fetched hint of
every `Some` excerpt entry becomes a freshly id-allocated entry of a new
per-excerpt map, all scheduled for insertion. -/
def buildNewBuffer :
    List (ExcerptId × FetchedExcerpt) →
    List (ExcerptId × OrderedByAnchorOffset (InlayId × InlayHint)) → Nat →
    List (ExcerptId × OrderedByAnchorOffset (InlayId × InlayHint)) × Nat
      × List (InlayId × Anchor × InlayHint)
  | [], acc, n => (acc, n, [])
  | (_, none) :: rest, acc, n => buildNewBuffer rest acc n
  | (eid, some (_, news)) :: rest, acc, n =>
    let (freshAdds, n') := allocNews news n
    let idx := addAll freshAdds ((alookup eid acc).getD [])
    let (acc', n'', ins) := buildNewBuffer rest (aset eid idx acc) n'
    (acc', n'', freshAdds.map (fun (a, id, h) => (id, a, h)) ++ ins)

/-- The outer buffer loop of `apply_fetch_inlays`, threading the merge state
and draining the pre-merge clone (`old_inlays`); returns the final state and
the un-drained clone entries (buffers absent from the batch). -/
def processBuffers : Batch → List (PathBuf × BufferInlays) → MergeState →
    MergeState × List (PathBuf × BufferInlays)
  | [], old, st => (st, old)
  | (path, version, excerpts) :: rest, old, st =>
    match alookup path old with
    | some oldBuf =>
      let st' := processKnownExcerpts path version excerpts oldBuf st
      processBuffers rest (aremove path old) st'
    | none =>
      let (excerptMap, n', ins) := buildNewBuffer excerpts [] st.next
      processBuffers rest old
        { ipb := aset path ⟨version, excerptMap⟩ st.ipb
          next := n'
          to_remove := st.to_remove
          to_insert := st.to_insert ++ ins }

/-- `InlayCache::apply_fetch_inlays`: merge a batch, purge the ids of
buffers absent from the batch, and filter insertions by the visible-kind
set. -/
def apply_fetch_inlays (c : InlayCache) (batch : Batch) : InlayCache × InlaySplice :=
  let (st, leftovers) :=
    processBuffers batch c.inlays_per_buffer
      ⟨c.inlays_per_buffer, c.next_inlay_id, [], []⟩
  let purge := leftovers.flatMap fun e => storedIds e.2
  ({ inlays_per_buffer := st.ipb
     allowed_hint_kinds := c.allowed_hint_kinds
     next_inlay_id := st.next },
   { to_remove := st.to_remove ++ purge
     to_insert := st.to_insert.filter fun (_, _, h) => h.kind ∈ c.allowed_hint_kinds })

/-- `QueryInlaysRange`: one fetch request. -/
structure QueryInlaysRange where
  buffer_id : Nat
  buffer_path : PathBuf
  buffer_version : Global
  excerpt_id : ExcerptId
  excerpt_offset_range : OffsetRange

/-- The collaborators `fetch_inlays` consults, modelled as a passive
environment: the multi-buffer (buffer lookup yielding the buffer's current
length), the optional project (hint source), the per-query response —
`Except` for a failed query, `Option` for the source's optional hint list —
and the snapshot's raw-offset-to-anchor conversion. -/
structure FetchEnv where
  buffer_len : Nat → Option Nat
  has_project : Bool
  query : Nat → OffsetRange → Except Unit (Option (List InlayHint))
  anchor_of : ExcerptId → Nat → Anchor

/-- Convert raw fetched hints into an ordered index of anchored hints, in
the fold order of the source. -/
def anchored (env : FetchEnv) (eid : ExcerptId) (hints : List InlayHint) :
    List (Anchor × InlayHint) :=
  hints.foldl (fun acc h => addOrdered (env.anchor_of eid h.position) h acc) []

/-- One request's task body: skip when up to date; otherwise return
"fetched, empty" when the buffer is gone or there is no project, or issue a
query over the end-clamped range. Returns the task's result and the range
actually submitted to the hint source (`none` when no query was issued). -/
def fetchOne (env : FetchEnv) (upToDate : Bool) (r : QueryInlaysRange) :
    Except Unit (Option (List InlayHint)) × Option OffsetRange :=
  if upToDate then (Except.ok none, none)
  else
    match env.buffer_len r.buffer_id with
    | none => (Except.ok (some []), none)
    | some len =>
      if env.has_project then
        let qr : OffsetRange :=
          ⟨r.excerpt_offset_range.start, min r.excerpt_offset_range.stop len⟩
        match env.query r.buffer_id qr with
        | Except.ok res => (Except.ok res, some qr)
        | Except.error e => (Except.error e, some qr)
      else (Except.ok (some []), none)

/-- Group one task result into the batch: a new buffer path starts a fresh
entry recording the request's version; an existing entry keeps its version
and extends its excerpt map (replacing an equal excerpt key). -/
def batchAdd : Batch → PathBuf → Global → ExcerptId → FetchedExcerpt → Batch
  | [], path, ver, eid, fe => [(path, ver, [(eid, fe)])]
  | (p, v, exc) :: rest, path, ver, eid, fe =>
    if path = p then (p, v, aset eid fe exc) :: rest
    else (p, v, exc) :: batchAdd rest path ver eid fe

/-- Fold one task result into the batch under construction: a successful
result is grouped by its buffer path, a failed query is logged and
excluded. -/
def batchStep (env : FetchEnv) (b : Batch)
    (rres : QueryInlaysRange × (Except Unit (Option (List InlayHint)) × Option OffsetRange)) :
    Batch :=
  match rres.2.1 with
  | Except.ok response =>
    batchAdd b rres.1.buffer_path rres.1.buffer_version rres.1.excerpt_id
      (response.map fun hints =>
        (rres.1.excerpt_offset_range, anchored env rres.1.excerpt_id hints))
  | Except.error _ => b

/-- `InlayCache::fetch_inlays`: decide staleness per request against the
call-time cache, run the per-request tasks (results joined in request
order), group successful results by buffer path — a failed query is logged
and excluded — and merge the batch unless it is empty. Returns the queries
issued to the hint source, the updated cache, and the splice. -/
def fetch_inlays (env : FetchEnv) (c : InlayCache) (requests : List QueryInlaysRange) :
    List (Nat × OffsetRange) × InlayCache × InlaySplice :=
  let results := requests.map fun r =>
    (r, fetchOne env
      (inlays_up_to_date c.inlays_per_buffer r.buffer_path r.buffer_version r.excerpt_id) r)
  let queries := results.filterMap fun rres => rres.2.2.map fun qr => (rres.1.buffer_id, qr)
  let batch := results.foldl (batchStep env) []
  if batch.isEmpty then (queries, c, ⟨[], []⟩)
  else
    let (c', splice) := apply_fetch_inlays c batch
    (queries, c', splice)

/-- The ids carried by a list of additions `(Anchor, (InlayId, InlayHint))`,
in order. -/
def addsIds (l : List (Anchor × InlayId × InlayHint)) : List Nat := l.map fun e => e.2.1

/-- The ids carried by a (raw) `to_insert` list, in order. -/
def insIds (l : List (InlayId × Anchor × InlayHint)) : List Nat := l.map fun e => e.1

/-- Allocation specification: between counter values `n` and `n'`, exactly
the ids `n, n+1, …, n'-1` were issued, in order. -/
def AllocSpec (n n' : Nat) (ids : List Nat) : Prop :=
  n ≤ n' ∧ ids = List.range' n (n' - n)

/-- Allocation relation between two merge states: the allocator only
advances, and the raw `to_insert` grows by exactly the contiguous block of
freshly allocated ids. -/
def StAlloc (st st' : MergeState) : Prop :=
  st.next ≤ st'.next
    ∧ insIds st'.to_insert = insIds st.to_insert ++ List.range' st.next (st'.next - st.next)

/-! Concrete fixtures used by the evaluation theorems below. -/

/-- A hint of "other" kind at offset 5 with label `old`. -/
def hOld : InlayHint := ⟨5, none, "old"⟩

/-- A hint of "other" kind at offset 5 with label `v1`. -/
def hV1 : InlayHint := ⟨5, none, "v1"⟩

/-- A hint of "other" kind at offset 5 with label `v2`. -/
def hV2 : InlayHint := ⟨5, none, "v2"⟩

/-- The visible-kind set with all three kinds visible. -/
def allowAll : Finset (Option InlayHintKind) :=
  {none, some InlayHintKind.type, some InlayHintKind.parameter}

/-- A cache holding one buffer `a` at version 0 whose excerpt 1 caches
`hOld` under id 0; the allocator is at 1. -/
def cacheA0 : InlayCache := ⟨[("a", ⟨0, [(1, [(⟨5, 0⟩, 0, hOld)])]⟩)], allowAll, 1⟩

/-- A batch carrying buffer `a` at version 2 with one fetched hint `hV2`
for excerpt 1. -/
def batchV2 : Batch := [("a", 2, [(1, some (⟨0, 100⟩, [(⟨5, 2⟩, hV2)]))])]

/-- A batch carrying buffer `a` at version 1 with one fetched hint `hV1`
for excerpt 1. -/
def batchV1 : Batch := [("a", 1, [(1, some (⟨0, 100⟩, [(⟨5, 1⟩, hV1)]))])]

/-- A batch naming only buffer `b` (buffer `a` absent), at version 1, with
an empty fetched excerpt. -/
def batchOnlyB : Batch := [("b", 1, [(2, some (⟨0, 10⟩, []))])]

/-- A cache whose single buffer `p` caches, in excerpt `eid`, exactly one
hint `oh` under id `oid` at anchor `oa`; version stamp `v0`, allocator at
`nid`. -/
def singletonCache (p : PathBuf) (eid : ExcerptId) (oa : Anchor) (oid : InlayId)
    (oh : InlayHint) (v0 : Global) (allowed : Finset (Option InlayHintKind))
    (nid : Nat) : InlayCache :=
  ⟨[(p, ⟨v0, [(eid, [(oa, oid, oh)])]⟩)], allowed, nid⟩

/-- A batch fetching, for buffer `p` at version `v1`, exactly one hint `nh`
anchored at `na` in excerpt `eid`. -/
def singletonBatch (p : PathBuf) (eid : ExcerptId) (na : Anchor) (nh : InlayHint)
    (v1 : Global) (r : OffsetRange) : Batch :=
  [(p, v1, [(eid, some (r, [(na, nh)]))])]

/-- An empty cache with all kinds visible. -/
def cacheEmpty : InlayCache := ⟨[], allowAll, 0⟩

/-- An environment whose every buffer has length 50 and whose hint source
answers every query with an empty hint list. -/
def envLen50 : FetchEnv :=
  ⟨fun _ => some 50, true, fun _ _ => Except.ok (some []), fun _ p => ⟨p, 0⟩⟩

/-- An environment in which no buffer can be found in the multi-buffer. -/
def envNoBuffer : FetchEnv :=
  ⟨fun _ => none, true, fun _ _ => Except.ok (some []), fun _ p => ⟨p, 0⟩⟩

/-- An environment whose every query fails. -/
def envFail : FetchEnv :=
  ⟨fun _ => some 50, true, fun _ _ => Except.error (), fun _ p => ⟨p, 0⟩⟩

/-- A fetch request for buffer `a` (id 7) at version 3, excerpt 1, offsets
0 to 10. -/
def reqA : QueryInlaysRange := ⟨7, "a", 3, 1, ⟨0, 10⟩⟩

/-- A fetch request for buffer `a` (id 7) whose offset range 60 to 100
starts beyond the buffer length of `envLen50`. -/
def reqHigh : QueryInlaysRange := ⟨7, "a", 3, 1, ⟨60, 100⟩⟩

/-- A fetch request for buffer `b` (id 9) at version 1, excerpt 2. -/
def reqB : QueryInlaysRange := ⟨9, "b", 1, 2, ⟨0, 10⟩⟩

/-- A cache holding buffer `z` (id 3 cached) and buffer `a` at version 9
(id 4 cached), allocator at 5. -/
def cacheZA : InlayCache :=
  ⟨[("z", ⟨0, [(1, [(⟨5, 0⟩, 3, hOld)])]⟩), ("a", ⟨9, [(1, [(⟨6, 0⟩, 4, hOld)])]⟩)],
    allowAll, 5⟩

/-- A fetch request for buffer `a` at version 3 — up to date against
`cacheZA`, whose recorded version 9 is ahead. -/
def reqSkip : QueryInlaysRange := ⟨7, "a", 3, 1, ⟨0, 10⟩⟩

end InlayCacheModel

namespace InlayCacheModel

/-- Claim C1: after `apply_settings`, `allowed_hint_kinds` should equal the
set derived from the new configuration's three flags, also when a kind is
visible both before and after. The code instead stores the difference
`new − old`: starting from `{Other}` and applying a configuration that
enables exactly `Other` again leaves the visible-kind set empty, not
`{Other}`. -/
theorem apply_settings_stores_difference_not_new_set :
    (apply_settings ⟨[], {(none : Option InlayHintKind)}, 0⟩ ⟨false, false, true⟩).1.allowed_hint_kinds
        = (∅ : Finset (Option InlayHintKind))
      ∧ allowed_inlay_hint_types ⟨false, false, true⟩ = {(none : Option InlayHintKind)}
      ∧ (apply_settings ⟨[], {(none : Option InlayHintKind)}, 0⟩ ⟨false, false, true⟩).1.allowed_hint_kinds
        ≠ allowed_inlay_hint_types ⟨false, false, true⟩ := by
  decide

/-- Claim C2: merging a batch at version 2 into a cache that already holds a
Per-Buffer Store for buffer `a` at version 0, with excerpt 1 fetched (present
and not up to date), leaves the stored version stamp at 0 — the known-buffer
path of `apply_fetch_inlays` never writes the batch's version (the source
even carries a TODO about it), though the excerpt's hints are replaced. -/
theorem apply_fetch_inlays_keeps_stale_version :
    ((apply_fetch_inlays cacheA0 batchV2).1.inlays_per_buffer.map
        fun p => (p.1, p.2.buffer_version)) = [("a", 0)]
      ∧ (apply_fetch_inlays cacheA0 batchV2).2.to_remove = [0]
      ∧ (0 : Global) ≠ 2 := by
  decide

/-- Claim C3: buffer `a` is cached but absent from a batch naming only
buffer `b`; every id buffer `a` held (here id 0) is scheduled for removal,
but — contrary to the claim — buffer `a`'s Per-Buffer Store is still present
in the cache after the merge: only the pre-merge clone is drained, the
cache's own map is never pruned. -/
theorem apply_fetch_inlays_purged_store_survives :
    (apply_fetch_inlays cacheA0 batchOnlyB).2.to_remove = [0]
      ∧ (alookup "a" (apply_fetch_inlays cacheA0 batchOnlyB).1.inlays_per_buffer).isSome = true := by
  decide

/-- Claim C4: with buffer `a` cached at version 0, merging a version-2 fetch
first and then a late version-1 fetch for the same excerpt is claimed to be
a no-op for the late fetch; because the known-buffer path never advances the
stored version stamp, the staleness re-check does not fire, and the stale
version-1 result overwrites the version-2 hints and emits splice entries. -/
theorem stale_fetch_overwrites_newer_merge :
    (apply_fetch_inlays (apply_fetch_inlays cacheA0 batchV2).1 batchV1).2.to_remove = [1]
      ∧ ((apply_fetch_inlays (apply_fetch_inlays cacheA0 batchV2).1 batchV1).1.inlays_per_buffer.map
          fun p => (p.1, p.2.inlays_per_excerpts)) = [("a", [(1, [(⟨5, 1⟩, 2, hV1)])])] :=
  ⟨rfl, rfl⟩

/-- Claim C5: merging the same batch twice with no intervening state change
is claimed to yield an empty splice the second time; but a cached buffer
absent from the batch is purged into `to_remove` on *both* calls (its store
is never dropped), so the second splice repeats the removal of id 0. -/
theorem second_merge_of_same_batch_not_empty :
    (apply_fetch_inlays (apply_fetch_inlays cacheA0 batchOnlyB).1 batchOnlyB).2.to_remove = [0]
      ∧ (apply_fetch_inlays (apply_fetch_inlays cacheA0 batchOnlyB).1 batchOnlyB).2
        ≠ (⟨[], []⟩ : InlaySplice) := by
  decide

/-- Claim C6 counterexample: cached hint at offset 5 (kind Other) and a
fetched hint at the same offset with differing content, while the
visible-kind set is `{Type}`. The old id 0 is scheduled for removal as
claimed, but the new content is *not* placed in `to_insert`: the final
filter drops it because its kind is not visible — refuting the claim's
unconditional "the new content is placed in to_insert". -/
theorem equal_offset_differing_content_not_inserted :
    (apply_fetch_inlays
        ⟨[("a", ⟨0, [(1, [(⟨5, 0⟩, 0, hOld)])]⟩)],
          {(some InlayHintKind.type : Option InlayHintKind)}, 1⟩
        batchV2).2
      = ⟨[0], []⟩ := by
  decide

/-- Claim C6 as amended: for an excerpt holding a single cached hint and a
batch fetching a single hint at the same offset (stale version, so the
merge-join runs): identical content retains the old entry under its
existing id with an empty splice; differing content schedules the old id
for removal, stores the new content under the freshly allocated id, and
places it in `to_insert` exactly when its kind is in the visible-kind
set. -/
theorem merge_join_equal_offset_cases
    (p : PathBuf) (eid : ExcerptId) (oa na : Anchor) (oid : InlayId)
    (oh nh : InlayHint) (v0 v1 : Global) (allowed : Finset (Option InlayHintKind))
    (nid : Nat) (r : OffsetRange)
    (hoff : na.offset = oa.offset) (hver : v0 < v1) :
    (oh = nh →
      (apply_fetch_inlays (singletonCache p eid oa oid oh v0 allowed nid)
          (singletonBatch p eid na nh v1 r)).1.inlays_per_buffer
        = [(p, ⟨v0, [(eid, [(oa, oid, oh)])]⟩)]
      ∧ (apply_fetch_inlays (singletonCache p eid oa oid oh v0 allowed nid)
          (singletonBatch p eid na nh v1 r)).2 = ⟨[], []⟩)
    ∧ (oh ≠ nh →
      (apply_fetch_inlays (singletonCache p eid oa oid oh v0 allowed nid)
          (singletonBatch p eid na nh v1 r)).2.to_remove = [oid]
      ∧ (apply_fetch_inlays (singletonCache p eid oa oid oh v0 allowed nid)
          (singletonBatch p eid na nh v1 r)).1.inlays_per_buffer
        = [(p, ⟨v0, [(eid, [(na, nid, nh)])]⟩)]
      ∧ (apply_fetch_inlays (singletonCache p eid oa oid oh v0 allowed nid)
          (singletonBatch p eid na nh v1 r)).2.to_insert
        = if nh.kind ∈ allowed then [(nid, na, nh)] else []) := by
  have hbeq : (v1 == v0) = false := by
    simp only [beq_eq_false_iff_ne, ne_eq]
    exact Nat.ne_of_gt hver
  have hcs : changed_since v0 v1 = false := by
    simp only [changed_since, decide_eq_false_iff_not, not_lt]
    exact Nat.le_of_lt hver
  constructor
  · intro h
    subst h
    simp [apply_fetch_inlays, processBuffers, processKnownExcerpts, singletonCache,
      singletonBatch, alookup, aremove, aset, inlays_up_to_date, hbeq, hcs,
      joinOlds, joinOne, hoff, allocNews, addAll, addOrdered]
  · intro h
    have h' : nh ≠ oh := fun e => h e.symm
    simp [apply_fetch_inlays, processBuffers, processKnownExcerpts, singletonCache,
      singletonBatch, alookup, aremove, aset, inlays_up_to_date, hbeq, hcs,
      joinOlds, joinOne, hoff, h', allocNews, addAll, addOrdered, List.filter]
    split <;> simp_all

/-- Claim C6 witness: the amended theorem applied at a concrete input — the
equal-offset hypothesis and the version hypothesis hold at offset 5 and
versions 0 < 1, and the differing-content branch yields `to_remove = [0]`. -/
theorem merge_join_equal_offset_cases_witness :
    (⟨5, 2⟩ : Anchor).offset = (⟨5, 0⟩ : Anchor).offset ∧ (0 : Global) < 1
      ∧ (apply_fetch_inlays (singletonCache "a" 1 ⟨5, 0⟩ 0 hOld 0 allowAll 1)
          (singletonBatch "a" 1 ⟨5, 2⟩ hV2 1 ⟨0, 100⟩)).2.to_remove = [0] :=
  ⟨rfl, by decide,
    ((merge_join_equal_offset_cases "a" 1 ⟨5, 0⟩ ⟨5, 2⟩ 0 hOld hV2 0 1 allowAll 1 ⟨0, 100⟩
        rfl (by decide)).2 (by decide)).1⟩

/-! Lemmas about id allocation through the merge, leading to claim C7. -/

theorem range'_add1 (s m n : Nat) :
    List.range' s m ++ List.range' (s + m) n = List.range' s (m + n) := by
  have h := List.range'_append s m n 1
  simp only [Nat.mul_one, Nat.one_mul, Nat.add_comm n m] at h
  simpa using h

theorem allocSpec_refl (n : Nat) : AllocSpec n n [] := by
  simp [AllocSpec]

theorem allocSpec_comp {n n1 n2 : Nat} {l1 l2 : List Nat}
    (h1 : AllocSpec n n1 l1) (h2 : AllocSpec n1 n2 l2) :
    AllocSpec n n2 (l1 ++ l2) := by
  obtain ⟨hle1, he1⟩ := h1
  obtain ⟨hle2, he2⟩ := h2
  refine ⟨Nat.le_trans hle1 hle2, ?_⟩
  have key := range'_add1 n (n1 - n) (n2 - n1)
  rw [Nat.add_sub_cancel' hle1] at key
  rw [he1, he2, key]
  congr 1
  omega

theorem allocSpec_cons {n n' : Nat} {l : List Nat}
    (h : AllocSpec (n + 1) n' l) : AllocSpec n n' (n :: l) := by
  have h1 : AllocSpec n (n + 1) [n] := by simp [AllocSpec]
  simpa using allocSpec_comp h1 h

theorem joinOne_alloc (oa : Anchor) (oh : InlayHint) :
    ∀ (news : List (Anchor × InlayHint)) (retain : Bool) (n : Nat),
    AllocSpec n (joinOne oa oh retain news n).2.2.1
      (addsIds (joinOne oa oh retain news n).2.2.2)
  | [], retain, n => by simp [joinOne, addsIds, allocSpec_refl]
  | (na, nh) :: rest, retain, n => by
    simp only [joinOne]
    split
    · have ih := joinOne_alloc oa oh rest retain (n + 1)
      simp only [addsIds, List.map_cons] at *
      exact allocSpec_cons ih
    · split
      · split
        · exact joinOne_alloc oa oh rest true n
        · have ih := joinOne_alloc oa oh rest retain (n + 1)
          simp only [addsIds, List.map_cons] at *
          exact allocSpec_cons ih
      · simp [addsIds, allocSpec_refl]

theorem addsIds_append (l1 l2 : List (Anchor × InlayId × InlayHint)) :
    addsIds (l1 ++ l2) = addsIds l1 ++ addsIds l2 := List.map_append _ _ _

theorem insIds_append (l1 l2 : List (InlayId × Anchor × InlayHint)) :
    insIds (l1 ++ l2) = insIds l1 ++ insIds l2 := List.map_append _ _ _

theorem insIds_conv (l : List (Anchor × InlayId × InlayHint)) :
    insIds (l.map fun x => (x.2.1, x.1, x.2.2)) = addsIds l := by
  induction l with
  | nil => rfl
  | cons a t ih => simp [insIds, addsIds] at *

theorem joinOlds_alloc :
    ∀ (olds : List (Anchor × InlayId × InlayHint)) (news : List (Anchor × InlayHint)) (n : Nat),
    AllocSpec n (joinOlds olds news n).2.2.2.1 (addsIds (joinOlds olds news n).2.2.2.2)
  | [], news, n => by simp [joinOlds, addsIds, allocSpec_refl]
  | (oa, oid, oh) :: olds', news, n => by
    rcases hj : joinOne oa oh false news n with ⟨r, rest', n1, adds⟩
    rcases hr : joinOlds olds' rest' n1 with ⟨kept, removed, news'', n2, adds'⟩
    have h1 := joinOne_alloc oa oh news false n
    rw [hj] at h1
    have h2 := joinOlds_alloc olds' rest' n1
    rw [hr] at h2
    simp only [joinOlds, hj, hr]
    cases r <;> simpa [addsIds_append] using allocSpec_comp h1 h2

theorem allocNews_alloc :
    ∀ (news : List (Anchor × InlayHint)) (n : Nat),
    AllocSpec n (allocNews news n).2 (addsIds (allocNews news n).1)
  | [], n => by simp [allocNews, addsIds, allocSpec_refl]
  | (a, h) :: rest, n => by
    rcases ha : allocNews rest (n + 1) with ⟨l, n'⟩
    have ih := allocNews_alloc rest (n + 1)
    rw [ha] at ih
    simp only [allocNews, ha]
    simpa [addsIds] using allocSpec_cons ih

theorem buildNewBuffer_alloc :
    ∀ (excerpts : List (ExcerptId × FetchedExcerpt))
      (acc : List (ExcerptId × OrderedByAnchorOffset (InlayId × InlayHint))) (n : Nat),
    AllocSpec n (buildNewBuffer excerpts acc n).2.1 (insIds (buildNewBuffer excerpts acc n).2.2)
  | [], acc, n => by simp [buildNewBuffer, insIds, allocSpec_refl]
  | (eid, none) :: rest, acc, n => by
    simpa [buildNewBuffer] using buildNewBuffer_alloc rest acc n
  | (eid, some (r, news)) :: rest, acc, n => by
    rcases ha : allocNews news n with ⟨freshAdds, n'⟩
    have h1 := allocNews_alloc news n
    rw [ha] at h1
    rcases hb : buildNewBuffer rest (aset eid (addAll freshAdds ((alookup eid acc).getD [])) acc) n'
      with ⟨acc', n'', ins⟩
    have h2 := buildNewBuffer_alloc rest (aset eid (addAll freshAdds ((alookup eid acc).getD [])) acc) n'
    rw [hb] at h2
    simp only [buildNewBuffer, ha, hb]
    have := allocSpec_comp h1 h2
    simpa [insIds, addsIds, List.map_append, insIds_conv] using this

theorem stAlloc_refl (st : MergeState) : StAlloc st st := by simp [StAlloc]

theorem stAlloc_trans {s1 s2 s3 : MergeState}
    (h1 : StAlloc s1 s2) (h2 : StAlloc s2 s3) : StAlloc s1 s3 := by
  obtain ⟨hle1, he1⟩ := h1
  obtain ⟨hle2, he2⟩ := h2
  refine ⟨Nat.le_trans hle1 hle2, ?_⟩
  have key := range'_add1 s1.next (s2.next - s1.next) (s3.next - s2.next)
  rw [Nat.add_sub_cancel' hle1] at key
  rw [he2, he1, List.append_assoc, key]
  congr 2
  omega

theorem stAlloc_step {st : MergeState} {ipb : List (PathBuf × BufferInlays)}
    {rem : List InlayId} {delta : List (InlayId × Anchor × InlayHint)} {n' : Nat}
    (h : AllocSpec st.next n' (insIds delta)) :
    StAlloc st ⟨ipb, n', rem, st.to_insert ++ delta⟩ := by
  obtain ⟨hle, he⟩ := h
  exact ⟨hle, by simp [insIds, List.map_append] at *; exact he⟩

theorem pke_alloc :
    ∀ (excerpts : List (ExcerptId × FetchedExcerpt)) (path : PathBuf) (version : Global)
      (oldBuf : BufferInlays) (st : MergeState),
    StAlloc st (processKnownExcerpts path version excerpts oldBuf st)
  | [], _, _, _, st => stAlloc_refl st
  | (eid, entry) :: rest, path, version, oldBuf, st => by
    match entry with
    | none =>
      simpa only [processKnownExcerpts] using pke_alloc rest path version oldBuf st
    | some (r0, news) =>
      simp only [processKnownExcerpts]
      cases hu : inlays_up_to_date st.ipb path version eid with
      | true => simpa only [if_true] using pke_alloc rest path version oldBuf st
      | false =>
        simp only [Bool.false_eq_true, if_false]
        cases hp : alookup path st.ipb with
        | none => exact pke_alloc rest path version oldBuf st
        | some selfBuf =>
          cases ho : (alookup eid oldBuf.inlays_per_excerpts).isSome with
          | true =>
            simp only [if_true]
            cases hs : alookup eid selfBuf.inlays_per_excerpts with
            | none => exact pke_alloc rest path version _ st
            | some olds =>
              rcases hj : joinOlds olds news st.next with ⟨kept, removed, newsRest, n1, adds⟩
              rcases ha : allocNews newsRest n1 with ⟨freshAdds, n2⟩
              have h1 := joinOlds_alloc olds news st.next
              rw [hj] at h1
              have h2 := allocNews_alloc newsRest n1
              rw [ha] at h2
              simp only [hj, ha]
              refine stAlloc_trans (stAlloc_step ?_) (pke_alloc rest path version _ _)
              simpa [insIds_append, insIds_conv, addsIds_append] using allocSpec_comp h1 h2
          | false =>
            simp only [Bool.false_eq_true, if_false]
            rcases ha : allocNews news st.next with ⟨freshAdds, n1⟩
            have h1 := allocNews_alloc news st.next
            rw [ha] at h1
            simp only [ha]
            refine stAlloc_trans (stAlloc_step ?_) (pke_alloc rest path version _ _)
            simpa [insIds_conv] using h1

theorem pb_alloc :
    ∀ (batch : Batch) (old : List (PathBuf × BufferInlays)) (st : MergeState),
    StAlloc st (processBuffers batch old st).1
  | [], old, st => stAlloc_refl st
  | (path, version, excerpts) :: rest, old, st => by
    simp only [processBuffers]
    cases hp : alookup path old with
    | some oldBuf =>
      exact stAlloc_trans (pke_alloc excerpts path version oldBuf st)
        (pb_alloc rest (aremove path old) _)
    | none =>
      rcases hb : buildNewBuffer excerpts [] st.next with ⟨excerptMap, n', ins⟩
      have h1 := buildNewBuffer_alloc excerpts [] st.next
      rw [hb] at h1
      simp only [hb]
      exact stAlloc_trans (stAlloc_step h1) (pb_alloc rest old _)

/-- Claim C7: all ids issued during one `apply_fetch_inlays` merge form
exactly the contiguous block `[next, next')` of the pre-call allocator value
(each allocation post-increments the counter), so they are pairwise distinct
and disjoint from every id issued before or after; `apply_settings` and
`clear` never advance nor reset the allocator, and `clear` empties the
stored hints — together: no Inlay Id is ever issued twice over any sequence
of fetch-merge, `apply_settings` and `clear` operations. -/
theorem inlay_ids_never_reissued (c : InlayCache) (batch : Batch) (s : InlayHints) :
    (c.next_inlay_id ≤ (processBuffers batch c.inlays_per_buffer
        ⟨c.inlays_per_buffer, c.next_inlay_id, [], []⟩).1.next
      ∧ insIds (processBuffers batch c.inlays_per_buffer
          ⟨c.inlays_per_buffer, c.next_inlay_id, [], []⟩).1.to_insert
        = List.range' c.next_inlay_id
            ((processBuffers batch c.inlays_per_buffer
              ⟨c.inlays_per_buffer, c.next_inlay_id, [], []⟩).1.next - c.next_inlay_id)
      ∧ (insIds (processBuffers batch c.inlays_per_buffer
          ⟨c.inlays_per_buffer, c.next_inlay_id, [], []⟩).1.to_insert).Nodup
      ∧ (apply_fetch_inlays c batch).1.next_inlay_id
        = (processBuffers batch c.inlays_per_buffer
            ⟨c.inlays_per_buffer, c.next_inlay_id, [], []⟩).1.next)
    ∧ (apply_settings c s).1.next_inlay_id = c.next_inlay_id
    ∧ (clear c).1.next_inlay_id = c.next_inlay_id
    ∧ (clear c).1.inlays_per_buffer = [] := by
  have h := pb_alloc batch c.inlays_per_buffer ⟨c.inlays_per_buffer, c.next_inlay_id, [], []⟩
  obtain ⟨hle, he⟩ := h
  simp only [insIds, List.map_nil, List.nil_append] at he
  refine ⟨⟨hle, he, ?_, ?_⟩, rfl, rfl, rfl⟩
  · rw [show insIds (processBuffers batch c.inlays_per_buffer
        ⟨c.inlays_per_buffer, c.next_inlay_id, [], []⟩).1.to_insert
      = List.range' c.next_inlay_id
          ((processBuffers batch c.inlays_per_buffer
            ⟨c.inlays_per_buffer, c.next_inlay_id, [], []⟩).1.next - c.next_inlay_id) from he]
    exact List.nodup_range' _ _
  · rcases hpb : processBuffers batch c.inlays_per_buffer
      ⟨c.inlays_per_buffer, c.next_inlay_id, [], []⟩ with ⟨st, leftovers⟩
    simp [apply_fetch_inlays, hpb]

/-- Claim C8 counterexample: with an empty cache the request is *not* up to
date, yet no query is issued and no hints are contributed, because the
request's buffer cannot be found in the multi-buffer — the task returns
"fetched, empty" without consulting the hint source, refuting "for every
request failing either condition, a query is issued". -/
theorem fetch_not_skipped_but_no_query :
    inlays_up_to_date cacheEmpty.inlays_per_buffer reqA.buffer_path reqA.buffer_version
        reqA.excerpt_id = false
      ∧ (fetch_inlays envNoBuffer cacheEmpty [reqA]).1 = []
      ∧ (fetchOne envNoBuffer false reqA).1 = Except.ok (some []) :=
  ⟨rfl, rfl, rfl⟩

/-- Characterisation of the staleness rule: `inlays_up_to_date` holds
exactly when the buffer has a store whose recorded version is `≥` the
requested version and an index exists for the excerpt. -/
theorem inlays_up_to_date_iff (ipb : List (PathBuf × BufferInlays)) (p : PathBuf)
    (v : Global) (e : ExcerptId) :
    inlays_up_to_date ipb p v e = true ↔
      ∃ bi, alookup p ipb = some bi ∧ v ≤ bi.buffer_version
        ∧ (alookup e bi.inlays_per_excerpts).isSome = true := by
  unfold inlays_up_to_date
  cases h : alookup p ipb with
  | none => simp
  | some bi =>
    simp only [changed_since, Bool.and_eq_true, Bool.or_eq_true, beq_iff_eq,
      decide_eq_true_eq, Option.some.injEq]
    constructor
    · rintro ⟨hor, hs⟩
      refine ⟨bi, rfl, ?_, hs⟩
      cases hor with
      | inl heq => exact Nat.le_of_eq heq
      | inr hlt => exact Nat.le_of_lt hlt
    · rintro ⟨bi', hbi, hle, hs⟩
      cases hbi
      refine ⟨?_, hs⟩
      cases Nat.eq_or_lt_of_le hle with
      | inl heq => exact Or.inl heq
      | inr hlt => exact Or.inr hlt

/-- Claim C8 as amended: provided the request's buffer is still present in
the multi-buffer and the editor has a project, a request is skipped
(no query issued, the "skipped, no change" marker returned) exactly when
the cache's recorded version for the buffer is `≥` the requested version
and an index exists for the excerpt; every request failing the condition
issues a query. -/
theorem fetch_skip_iff_up_to_date (env : FetchEnv) (c : InlayCache) (r : QueryInlaysRange)
    (hbuf : (env.buffer_len r.buffer_id).isSome = true) (hproj : env.has_project = true) :
    (((fetchOne env (inlays_up_to_date c.inlays_per_buffer r.buffer_path r.buffer_version
            r.excerpt_id) r).1 = Except.ok none
        ∧ (fetchOne env (inlays_up_to_date c.inlays_per_buffer r.buffer_path r.buffer_version
            r.excerpt_id) r).2 = none)
      ↔ inlays_up_to_date c.inlays_per_buffer r.buffer_path r.buffer_version r.excerpt_id = true)
    ∧ (inlays_up_to_date c.inlays_per_buffer r.buffer_path r.buffer_version r.excerpt_id = false →
        (fetchOne env (inlays_up_to_date c.inlays_per_buffer r.buffer_path r.buffer_version
          r.excerpt_id) r).2.isSome = true)
    ∧ (inlays_up_to_date c.inlays_per_buffer r.buffer_path r.buffer_version r.excerpt_id = true ↔
        ∃ bi, alookup r.buffer_path c.inlays_per_buffer = some bi
          ∧ r.buffer_version ≤ bi.buffer_version
          ∧ (alookup r.excerpt_id bi.inlays_per_excerpts).isSome = true) := by
  refine ⟨?_, ?_, inlays_up_to_date_iff _ _ _ _⟩
  · cases hu : inlays_up_to_date c.inlays_per_buffer r.buffer_path r.buffer_version r.excerpt_id with
    | true => simp [fetchOne]
    | false =>
      simp only [fetchOne, Bool.false_eq_true, if_false]
      cases hb : env.buffer_len r.buffer_id with
      | none => rw [hb] at hbuf; simp at hbuf
      | some len =>
        simp only [hproj, if_true]
        cases hq : env.query r.buffer_id ⟨r.excerpt_offset_range.start,
            min r.excerpt_offset_range.stop len⟩ with
        | ok res => simp
        | error e => simp
  · intro hu
    rw [hu]
    simp only [fetchOne, Bool.false_eq_true, if_false]
    cases hb : env.buffer_len r.buffer_id with
    | none => rw [hb] at hbuf; simp at hbuf
    | some len =>
      simp only [hproj, if_true]
      cases hq : env.query r.buffer_id ⟨r.excerpt_offset_range.start,
          min r.excerpt_offset_range.stop len⟩ with
      | ok res => simp
      | error e => simp

/-- Claim C8 witness: with `envLen50` (buffer present, project available)
and an empty cache, the request `reqA` is not up to date and the amended
theorem yields that a query is issued. -/
theorem fetch_skip_iff_up_to_date_witness :
    (envLen50.buffer_len reqA.buffer_id).isSome = true
      ∧ envLen50.has_project = true
      ∧ (fetchOne envLen50 (inlays_up_to_date cacheEmpty.inlays_per_buffer reqA.buffer_path
          reqA.buffer_version reqA.excerpt_id) reqA).2.isSome = true :=
  ⟨rfl, rfl, (fetch_skip_iff_up_to_date envLen50 cacheEmpty reqA rfl rfl).2.1 rfl⟩

/-- Claim C9 counterexample: with buffer length 50 and requested range
60..100, the submitted range is 60..50 — its start exceeds the buffer
length, refuting "the submitted range lies entirely within
[0, buffer length] for every requested start". Only the end is clamped. -/
theorem fetch_submitted_start_exceeds_buffer_len :
    (fetch_inlays envLen50 cacheEmpty [reqHigh]).1 = [(7, ⟨60, 50⟩)]
      ∧ ¬(60 ≤ 50) :=
  ⟨rfl, by decide⟩

/-- Claim C9 as amended: for every request that actually issues a query,
the submitted range's start is the requested start, unchanged (and may
exceed the buffer length), while the submitted end is the requested end
clamped to the buffer's current length, hence always `≤` that length. -/
theorem fetch_submitted_range_end_clamped (env : FetchEnv) (u : Bool) (r : QueryInlaysRange)
    (len : Nat) (qr : OffsetRange)
    (hbuf : env.buffer_len r.buffer_id = some len)
    (hq : (fetchOne env u r).2 = some qr) :
    qr.start = r.excerpt_offset_range.start
      ∧ qr.stop = min r.excerpt_offset_range.stop len
      ∧ qr.stop ≤ len := by
  cases u with
  | true => simp [fetchOne] at hq
  | false =>
    simp only [fetchOne, Bool.false_eq_true, if_false, hbuf] at hq
    cases hpj : env.has_project with
    | false => rw [hpj] at hq; simp at hq
    | true =>
      rw [hpj] at hq
      simp only [if_true] at hq
      cases hqq : env.query r.buffer_id
          ⟨r.excerpt_offset_range.start, min r.excerpt_offset_range.stop len⟩ with
      | ok res =>
        rw [hqq] at hq
        simp only [Option.some.injEq] at hq
        subst hq
        exact ⟨rfl, rfl, Nat.min_le_right _ _⟩
      | error e =>
        rw [hqq] at hq
        simp only [Option.some.injEq] at hq
        subst hq
        exact ⟨rfl, rfl, Nat.min_le_right _ _⟩

/-- Claim C9 witness: the amended theorem applied to `reqHigh` against
`envLen50` — the query was issued with range 60..50, whose end is clamped
to the length 50 while the start stays 60. -/
theorem fetch_submitted_range_end_clamped_witness :
    envLen50.buffer_len reqHigh.buffer_id = some 50
      ∧ (fetchOne envLen50 false reqHigh).2 = some ⟨60, 50⟩
      ∧ ((⟨60, 50⟩ : OffsetRange).start = reqHigh.excerpt_offset_range.start
        ∧ (⟨60, 50⟩ : OffsetRange).stop = min reqHigh.excerpt_offset_range.stop 50
        ∧ (⟨60, 50⟩ : OffsetRange).stop ≤ 50) :=
  ⟨rfl, rfl, fetch_submitted_range_end_clamped envLen50 false reqHigh 50 ⟨60, 50⟩ rfl rfl⟩

/-! Lemmas leading to claim C10: buffers named in no request are purged into
`to_remove`, provided the batch is not empty. -/

theorem alookup_mem {K V : Type} [DecidableEq K] {k : K} {v : V} :
    ∀ {l : List (K × V)}, alookup k l = some v → (k, v) ∈ l
  | [], h => by simp [alookup] at h
  | (k', v') :: rest, h => by
    simp only [alookup] at h
    split at h
    · rename_i hk
      simp only [Option.some.injEq] at h
      subst hk
      subst h
      exact List.mem_cons_self _ _
    · exact List.mem_cons_of_mem _ (alookup_mem h)

theorem alookup_aremove_ne {K V : Type} [DecidableEq K] {k p : K} (hne : k ≠ p) :
    ∀ (l : List (K × V)), alookup p (aremove k l) = alookup p l
  | [] => rfl
  | (k', v') :: rest => by
    simp only [aremove]
    split
    · rename_i hk
      subst hk
      simp only [alookup]
      rw [if_neg (fun hpk => hne hpk.symm)]
    · simp only [alookup]
      split
      · rfl
      · exact alookup_aremove_ne hne rest

theorem batchAdd_ne_nil : ∀ (b : Batch) (path : PathBuf) (ver : Global) (eid : ExcerptId)
    (fe : FetchedExcerpt), batchAdd b path ver eid fe ≠ []
  | [], _, _, _, _ => by simp [batchAdd]
  | (p, v, exc) :: rest, path, ver, eid, fe => by
    simp only [batchAdd]
    split <;> simp

theorem batchStep_ne_nil (env : FetchEnv)
    (rr : QueryInlaysRange × (Except Unit (Option (List InlayHint)) × Option OffsetRange))
    {b : Batch} (hb : b ≠ []) : batchStep env b rr ≠ [] := by
  unfold batchStep
  cases rr.2.1 with
  | ok response => exact batchAdd_ne_nil _ _ _ _ _
  | error e => exact hb

theorem foldl_batchStep_ne_nil (env : FetchEnv) :
    ∀ (rs : List (QueryInlaysRange × (Except Unit (Option (List InlayHint)) × Option OffsetRange)))
      (b0 : Batch),
    (b0 ≠ [] ∨ ∃ rr ∈ rs, ∃ resp, rr.2.1 = Except.ok resp) →
    rs.foldl (batchStep env) b0 ≠ []
  | [], b0, h => by
    simp only [List.foldl_nil]
    rcases h with h | ⟨rr, hmem, _⟩
    · exact h
    · simp at hmem
  | rr :: rest, b0, h => by
    simp only [List.foldl_cons]
    rcases h with h | ⟨rr', hmem, resp, hok⟩
    · exact foldl_batchStep_ne_nil env rest _ (Or.inl (batchStep_ne_nil env rr h))
    · rcases List.mem_cons.mp hmem with heq | hmem'
      · subst heq
        refine foldl_batchStep_ne_nil env rest _ (Or.inl ?_)
        unfold batchStep
        rw [hok]
        exact batchAdd_ne_nil _ _ _ _ _
      · by_cases hb : b0 = []
        · exact foldl_batchStep_ne_nil env rest _ (Or.inr ⟨rr', hmem', resp, hok⟩)
        · exact foldl_batchStep_ne_nil env rest _ (Or.inl (batchStep_ne_nil env rr hb))

theorem batchAdd_key_mem {q : PathBuf} :
    ∀ {b : Batch} {path : PathBuf} {ver : Global} {eid : ExcerptId} {fe : FetchedExcerpt},
    q ∈ (batchAdd b path ver eid fe).map (fun e => e.1) →
    q = path ∨ q ∈ b.map (fun e => e.1)
  | [], path, ver, eid, fe, h => by
    simp [batchAdd] at h
    exact Or.inl h
  | (p, v, exc) :: rest, path, ver, eid, fe, h => by
    simp only [batchAdd] at h
    split at h
    · simp only [List.map_cons] at h ⊢
      exact Or.inr h
    · simp only [List.map_cons, List.mem_cons] at h ⊢
      rcases h with h | h
      · exact Or.inr (Or.inl h)
      · rcases batchAdd_key_mem h with h | h
        · exact Or.inl h
        · exact Or.inr (Or.inr h)

theorem foldl_batchStep_keys (env : FetchEnv) {q : PathBuf} :
    ∀ (rs : List (QueryInlaysRange × (Except Unit (Option (List InlayHint)) × Option OffsetRange)))
      (b0 : Batch),
    q ∈ (rs.foldl (batchStep env) b0).map (fun e => e.1) →
    q ∈ b0.map (fun e => e.1) ∨ ∃ rr ∈ rs, rr.1.buffer_path = q
  | [], b0, h => by
    simp only [List.foldl_nil] at h
    exact Or.inl h
  | rr :: rest, b0, h => by
    simp only [List.foldl_cons] at h
    rcases foldl_batchStep_keys env rest _ h with h' | ⟨rr', hmem, hpath⟩
    · rcases hrr : rr.2.1 with e | resp
      · simp only [batchStep, hrr] at h'
        exact Or.inl h'
      · simp only [batchStep, hrr] at h'
        rcases batchAdd_key_mem h' with h'' | h''
        · exact Or.inr ⟨rr, List.mem_cons_self _ _, h''.symm⟩
        · exact Or.inl h''
    · exact Or.inr ⟨rr', List.mem_cons_of_mem _ hmem, hpath⟩

theorem pb_leftover {p : PathBuf} {bi : BufferInlays} :
    ∀ (batch : Batch) (old : List (PathBuf × BufferInlays)) (st : MergeState),
    p ∉ batch.map (fun e => e.1) →
    alookup p old = some bi →
    alookup p (processBuffers batch old st).2 = some bi
  | [], old, st, _, hold => hold
  | (path, version, excerpts) :: rest, old, st, hnb, hold => by
    have hne : path ≠ p := by
      intro h
      subst h
      exact hnb (by simp)
    have hnb' : p ∉ rest.map (fun e => e.1) := by
      intro h
      exact hnb (by simp only [List.map_cons, List.mem_cons]; exact Or.inr h)
    simp only [processBuffers]
    cases hp : alookup path old with
    | some oldBuf =>
      refine pb_leftover rest _ _ hnb' ?_
      rw [alookup_aremove_ne hne]
      exact hold
    | none => exact pb_leftover rest old _ hnb' hold

theorem apply_fetch_absent_removed {c : InlayCache} {batch : Batch} {p : PathBuf}
    {bi : BufferInlays} {id : InlayId}
    (hp : alookup p c.inlays_per_buffer = some bi)
    (hnb : p ∉ batch.map (fun e => e.1))
    (hid : id ∈ storedIds bi) :
    id ∈ (apply_fetch_inlays c batch).2.to_remove := by
  rcases hpb : processBuffers batch c.inlays_per_buffer
    ⟨c.inlays_per_buffer, c.next_inlay_id, [], []⟩ with ⟨st, leftovers⟩
  have hl : alookup p leftovers = some bi := by
    have h := pb_leftover batch c.inlays_per_buffer
      ⟨c.inlays_per_buffer, c.next_inlay_id, [], []⟩ hnb hp
    rw [hpb] at h
    exact h
  simp only [apply_fetch_inlays, hpb]
  refine List.mem_append_right _ ?_
  exact List.mem_flatMap.mpr ⟨(p, bi), alookup_mem hl, hid⟩

theorem fetchOne_ok {env : FetchEnv}
    (hq : ∀ bid qr, ∃ resp, env.query bid qr = Except.ok resp) (u : Bool) (r : QueryInlaysRange) :
    ∃ resp, (fetchOne env u r).1 = Except.ok resp := by
  cases u with
  | true => exact ⟨none, rfl⟩
  | false =>
    simp only [fetchOne, Bool.false_eq_true, if_false]
    cases hb : env.buffer_len r.buffer_id with
    | none => exact ⟨some [], rfl⟩
    | some len =>
      cases hpj : env.has_project with
      | false => simp only [Bool.false_eq_true, if_false]; exact ⟨some [], rfl⟩
      | true =>
        simp only [if_true]
        obtain ⟨resp, hresp⟩ := hq r.buffer_id
          ⟨r.excerpt_offset_range.start, min r.excerpt_offset_range.stop len⟩
        rw [hresp]
        exact ⟨resp, rfl⟩

/-- Claim C10 counterexample: buffer `a` is cached and appears in no
request, the request set is non-empty, yet the returned Splice's
`to_remove` is empty — every request's query failed, so the batch is empty
and the merge (and its purge) never runs. -/
theorem all_queries_failing_skip_merge :
    ([reqB] : List QueryInlaysRange) ≠ []
      ∧ alookup "a" cacheA0.inlays_per_buffer = some ⟨0, [(1, [(⟨5, 0⟩, 0, hOld)])]⟩
      ∧ (∀ r ∈ ([reqB] : List QueryInlaysRange), r.buffer_path ≠ "a")
      ∧ (0 : InlayId) ∈ storedIds ⟨0, [(1, [(⟨5, 0⟩, 0, hOld)])]⟩
      ∧ (fetch_inlays envFail cacheA0 [reqB]).2.2.to_remove = [] := by
  refine ⟨List.cons_ne_nil _ _, rfl, by decide, by decide, rfl⟩

/-- Claim C10 as amended: for every `fetch_inlays` call with a non-empty
request set in which no query fails (skipped requests included — a skipped
request still contributes its buffer to the batch), the merge runs and the
Splice's `to_remove` contains every id cached for every buffer whose path
appears in no request. -/
theorem unrequested_buffers_purged (env : FetchEnv) (c : InlayCache)
    (requests : List QueryInlaysRange) (p : PathBuf) (bi : BufferInlays) (id : InlayId)
    (hne : requests ≠ [])
    (hok : ∀ bid qr, ∃ resp, env.query bid qr = Except.ok resp)
    (hp : alookup p c.inlays_per_buffer = some bi)
    (hnp : ∀ r ∈ requests, r.buffer_path ≠ p)
    (hid : id ∈ storedIds bi) :
    id ∈ (fetch_inlays env c requests).2.2.to_remove := by
  have hb_ne : (requests.map fun r =>
      (r, fetchOne env (inlays_up_to_date c.inlays_per_buffer r.buffer_path r.buffer_version
        r.excerpt_id) r)).foldl (batchStep env) [] ≠ [] := by
    obtain ⟨r0, rest0, hreq⟩ := List.exists_cons_of_ne_nil hne
    refine foldl_batchStep_ne_nil env _ [] (Or.inr ?_)
    subst hreq
    obtain ⟨resp, hresp⟩ := fetchOne_ok hok
      (inlays_up_to_date c.inlays_per_buffer r0.buffer_path r0.buffer_version r0.excerpt_id) r0
    exact ⟨_, List.mem_cons_self _ _, resp, hresp⟩
  have hkeys : p ∉ ((requests.map fun r =>
      (r, fetchOne env (inlays_up_to_date c.inlays_per_buffer r.buffer_path r.buffer_version
        r.excerpt_id) r)).foldl (batchStep env) []).map (fun e => e.1) := by
    intro hmemk
    rcases foldl_batchStep_keys env _ [] hmemk with h0 | ⟨rr, hmem, hpath⟩
    · simp at h0
    · rcases List.mem_map.mp hmem with ⟨r, hrmem, hr⟩
      subst hr
      exact hnp r hrmem hpath
  unfold fetch_inlays
  simp only [List.isEmpty_eq_false.mpr hb_ne, Bool.false_eq_true, if_false]
  exact apply_fetch_absent_removed hp hkeys hid

/-- Claim C10 witness: against `cacheZA`, the single request `reqSkip` is
up to date (skipped), its buffer `a` is named while buffer `z` is not — the
amended theorem yields that `z`'s cached id 3 lands in `to_remove`. -/
theorem unrequested_buffers_purged_witness :
    ([reqSkip] : List QueryInlaysRange) ≠ []
      ∧ (∀ bid qr, ∃ resp, envLen50.query bid qr = Except.ok resp)
      ∧ alookup "z" cacheZA.inlays_per_buffer = some ⟨0, [(1, [(⟨5, 0⟩, 3, hOld)])]⟩
      ∧ (∀ r ∈ ([reqSkip] : List QueryInlaysRange), r.buffer_path ≠ "z")
      ∧ (3 : InlayId) ∈ storedIds ⟨0, [(1, [(⟨5, 0⟩, 3, hOld)])]⟩
      ∧ inlays_up_to_date cacheZA.inlays_per_buffer reqSkip.buffer_path reqSkip.buffer_version
          reqSkip.excerpt_id = true
      ∧ (3 : InlayId) ∈ (fetch_inlays envLen50 cacheZA [reqSkip]).2.2.to_remove :=
  ⟨List.cons_ne_nil _ _, fun _ _ => ⟨some [], rfl⟩, rfl, by decide, by decide, rfl,
    unrequested_buffers_purged envLen50 cacheZA [reqSkip] "z" ⟨0, [(1, [(⟨5, 0⟩, 3, hOld)])]⟩ 3
      (List.cons_ne_nil _ _) (fun _ _ => ⟨some [], rfl⟩) rfl (by decide) (by decide)⟩

end InlayCacheModel
